import Mathlib

/-!
Verification development for the audio-to-score conversion pipeline.

The definitions below are a shallow embedding of the program's core:

* the worker pipeline `processAudio` (onset detection, YIN pitch
  detection, note emission) from `public/audio-worker.js`;
* `consolidateNotes` and `calculateTempo` from the same file;
* the binary encoder `createMidiFile` and `writeVarLength` from
  `src/pages/Index.tsx`;
* the Hamming-window frame preparation of `detectPitchFromBuffer` from
  the earlier main-thread variant of `Index.tsx`.

Conventions of the embedding: JavaScript numbers are modelled as exact
rationals where the code only performs field operations and comparisons
(`ℚ`), and as real numbers where `sqrt`, `log2`, `cos` occur (`ℝ`).
Machine floats are idealised as exact arithmetic.  `Math.floor` is
`Int.floor`, `Math.round` is `round` (both round half up, as in JS for
the positive values that occur).  Array indices are naturals; array
`slice` is drop/take; the stable in-place `sort` of JS arrays is
`List.insertionSort` (any stable sort by the same key yields the same
list).  Division by zero yields the junk value `0` as usual in Mathlib.
-/

namespace AudioToScore

/-- A note event exactly as built by the worker: onset time in seconds,
integer MIDI pitch, duration in seconds, integer velocity
(`{ time, pitch, duration, velocity }` in the source). -/
structure MidiNote where
  time : ℚ
  pitch : ℤ
  duration : ℚ
  velocity : ℤ
  deriving DecidableEq, Repr

/-- Comparison key of the JS comparator `(a, b) => a.time - b.time`. -/
def timeLE (a b : MidiNote) : Prop := a.time ≤ b.time

instance : DecidableRel timeLE := fun a b => inferInstanceAs (Decidable (a.time ≤ b.time))

instance : IsTotal MidiNote timeLE := ⟨fun a b => le_total a.time b.time⟩

instance : IsTrans MidiNote timeLE := ⟨fun _ _ _ h1 h2 => le_trans h1 h2⟩

/-- JS `Array.prototype.slice(a, b)` on a list. -/
def slice {α : Type} (data : List α) (a b : ℕ) : List α := (data.drop a).take (b - a)

/-- Source `getRMS`: root mean square of a buffer. -/
noncomputable def getRMS (buffer : List ℝ) : ℝ :=
  Real.sqrt ((buffer.map fun x => x * x).sum / buffer.length)

/-- Source `frequencyToMidi`: `12 * Math.log2(frequency / 440) + 69`. -/
noncomputable def frequencyToMidi (frequency : ℝ) : ℝ :=
  12 * Real.logb 2 (frequency / 440) + 69

section Yin

variable {α : Type} [LinearOrderedField α] [FloorRing α]

/-- Step 1 of `detectPitchYIN`: squared difference function
`yinBuffer[tau] = Σ_i (buffer[i] - buffer[i+tau])²` over the valid overlap. -/
def yinDiff (buffer : List α) (tau : ℕ) : α :=
  ((List.range (buffer.length - tau)).map fun i =>
    let delta := buffer.getD i 0 - buffer.getD (i + tau) 0
    delta * delta).sum

/-- `minPeriod = Math.floor(sampleRate / maxFreq)` (taken to `ℕ` for indexing). -/
def yinMinPeriod (sampleRate maxFreq : α) : ℕ := (⌊sampleRate / maxFreq⌋).toNat

/-- `maxPeriod = Math.floor(sampleRate / minFreq)` (taken to `ℕ` for indexing). -/
def yinMaxPeriod (sampleRate minFreq : α) : ℕ := (⌊sampleRate / minFreq⌋).toNat

/-- Raw `yinBuffer` contents after step 1: entries below `minPeriod` keep
their `Float32Array` initial value `0`. -/
def yinRaw (buffer : List α) (minPeriod tau : ℕ) : α :=
  if minPeriod ≤ tau then yinDiff buffer tau else 0

/-- The `runningSum` accumulator of step 2 after processing lags `1..tau`:
it sums the raw buffer values (each is read before being overwritten). -/
def yinRunningSum (buffer : List α) (minPeriod tau : ℕ) : α :=
  ((List.range tau).map fun k => yinRaw buffer minPeriod (k + 1)).sum

/-- Step 2 of `detectPitchYIN`: cumulative mean normalized difference,
`yinBuffer[0] = 1`, `yinBuffer[tau] *= tau / runningSum`. -/
def yinNorm (buffer : List α) (minPeriod tau : ℕ) : α :=
  if tau = 0 then 1
  else yinRaw buffer minPeriod tau * (tau / yinRunningSum buffer minPeriod tau)

/-- Step 3 of `detectPitchYIN`: the ascending scan
`for (tau = minPeriod; tau <= maxPeriod; tau++) if (yinBuffer[tau] < 0.1) ...`,
returning the first lag under the threshold; the second argument is the
number of lags still to inspect. -/
def yinScanFrom (buffer : List α) (minPeriod : ℕ) : ℕ → ℕ → Option ℕ
  | _, 0 => none
  | tau, n + 1 =>
    if yinNorm buffer minPeriod tau < 0.1 then some tau
    else yinScanFrom buffer minPeriod (tau + 1) n

/-- The full threshold scan over `[minPeriod, maxPeriod]`. -/
def yinScan (buffer : List α) (sampleRate minFreq maxFreq : α) : Option ℕ :=
  yinScanFrom buffer (yinMinPeriod sampleRate maxFreq) (yinMinPeriod sampleRate maxFreq)
    (yinMaxPeriod sampleRate minFreq + 1 - yinMinPeriod sampleRate maxFreq)

/-- Parabolic interpolation of `detectPitchYIN`:
`betterTau = tau + (s2 - s0) / (2 * (2 * s1 - s2 - s0))` when
`tau > 0 && tau < maxPeriod`, else `tau` itself. -/
def yinBetterTau (buffer : List α) (sampleRate minFreq maxFreq : α) (tau : ℕ) : α :=
  if 0 < tau ∧ tau < yinMaxPeriod sampleRate minFreq then
    let s0 := yinNorm buffer (yinMinPeriod sampleRate maxFreq) (tau - 1)
    let s1 := yinNorm buffer (yinMinPeriod sampleRate maxFreq) tau
    let s2 := yinNorm buffer (yinMinPeriod sampleRate maxFreq) (tau + 1)
    (tau : α) + (s2 - s0) / (2 * (2 * s1 - s2 - s0))
  else (tau : α)

/-- Source `detectPitchYIN`: returns `sampleRate / betterTau` at the first
lag under the threshold, or `0` if no lag crosses it. -/
def detectPitchYIN (buffer : List α) (sampleRate minFreq maxFreq : α) : α :=
  match yinScan buffer sampleRate minFreq maxFreq with
  | some tau => sampleRate / yinBetterTau buffer sampleRate minFreq maxFreq tau
  | none => 0

end Yin

/-- The indices visited by the worker loop
`for (let i = windowSize; i < audioData.length - windowSize; i += hopSize)`
with `windowSize = 1024`, `hopSize = 256`. -/
def pitchFrameIndices (len : ℕ) : List ℕ :=
  List.range' 1024 ((len - 2048 + 255) / 256) 256

/-- The window `audioData.slice(i, i + windowSize)` handed to the pitch
detector by `processAudio` (no taper is applied in the worker). -/
def frameWindow (data : List ℝ) (i : ℕ) : List ℝ := slice data i (i + 1024)

/-- The preceding window `audioData.slice(i - windowSize, i)`. -/
def framePrevWindow (data : List ℝ) (i : ℕ) : List ℝ := slice data (i - 1024) i

/-- `currentEnergy = getRMS(currentWindow)`. -/
noncomputable def frameEnergy (data : List ℝ) (i : ℕ) : ℝ := getRMS (frameWindow data i)

/-- `prevEnergy = getRMS(prevWindow)`. -/
noncomputable def framePrevEnergy (data : List ℝ) (i : ℕ) : ℝ :=
  getRMS (framePrevWindow data i)

/-- The per-frame pitch `detectPitchYIN(currentWindow, sampleRate, 80, 2000)`. -/
noncomputable def framePitch (data : List ℝ) (sampleRate : ℚ) (i : ℕ) : ℝ :=
  detectPitchYIN (frameWindow data i) (sampleRate : ℝ) 80 2000

/-- The mapped MIDI number `frequencyToMidi(pitch)` of a frame. -/
noncomputable def frameMidi (data : List ℝ) (sampleRate : ℚ) (i : ℕ) : ℝ :=
  frequencyToMidi (framePitch data sampleRate i)

/-- One iteration of the worker's note-detection branch: a note is pushed
only when `currentEnergy > 0.015`, `pitch > 0` and the mapped MIDI number
lies in `[36, 96]`; the note gets `Math.round(midiNote)` as pitch,
`hopSize / sampleRate` as duration and
`Math.min(127, Math.max(30, Math.floor(currentEnergy * 150)))` as velocity. -/
noncomputable def frameNote (data : List ℝ) (sampleRate : ℚ) (i : ℕ) : Option MidiNote :=
  if 0.015 < frameEnergy data i then
    if 0 < framePitch data sampleRate i then
      if 36 ≤ frameMidi data sampleRate i ∧ frameMidi data sampleRate i ≤ 96 then
        some
          { time := (i : ℚ) / sampleRate
            pitch := round (frameMidi data sampleRate i)
            duration := 256 / sampleRate
            velocity := min 127 (max 30 ⌊frameEnergy data i * 150⌋) }
      else none
    else none
  else none

/-- One iteration of the worker's onset-detection branch:
`currentEnergy > prevEnergy * 1.3 && currentEnergy > 0.02`. -/
noncomputable def frameOnset (data : List ℝ) (sampleRate : ℚ) (i : ℕ) : Option ℚ :=
  if framePrevEnergy data i * 1.3 < frameEnergy data i ∧ 0.02 < frameEnergy data i then
    some ((i : ℚ) / sampleRate)
  else none

/-- The `notes` array accumulated by the worker loop, before consolidation. -/
noncomputable def processAudioRawNotes (data : List ℝ) (sampleRate : ℚ) : List MidiNote :=
  (pitchFrameIndices data.length).filterMap (frameNote data sampleRate)

/-- The `onsets` array accumulated by the worker loop. -/
noncomputable def processAudioOnsets (data : List ℝ) (sampleRate : ℚ) : List ℚ :=
  (pitchFrameIndices data.length).filterMap (frameOnset data sampleRate)

/-- The loop body of `consolidateNotes` with its `currentNote` accumulator:
merge when `Math.abs(currentNote.pitch - note.pitch) <= 1` and
`note.time - currentNote.time < 0.2`; otherwise finalize `currentNote`
(kept only when `duration >= 0.05`) and restart from `note`. -/
def consolidateGo : MidiNote → List MidiNote → List MidiNote
  | currentNote, [] => if 0.05 ≤ currentNote.duration then [currentNote] else []
  | currentNote, note :: rest =>
    if |currentNote.pitch - note.pitch| ≤ 1 ∧ note.time - currentNote.time < 0.2 then
      consolidateGo
        { currentNote with
          duration := note.time + note.duration - currentNote.time
          velocity := max currentNote.velocity note.velocity } rest
    else
      (if 0.05 ≤ currentNote.duration then [currentNote] else []) ++ consolidateGo note rest

/-- Source `consolidateNotes`: sort by time, then run the accumulator loop. -/
def consolidateNotes (notes : List MidiNote) : List MidiNote :=
  match List.insertionSort timeLE notes with
  | [] => []
  | first :: rest => consolidateGo first rest

/-- The inter-onset differences `onsets[i] - onsets[i-1]` of `calculateTempo`. -/
def iois (onsets : List ℚ) : List ℚ := (onsets.zip onsets.tail).map fun p => p.2 - p.1

/-- The surviving intervals: `interval > 0.2 && interval < 3.0`. -/
def tempoIntervals (onsets : List ℚ) : List ℚ :=
  (iois onsets).filter fun x => 0.2 < x ∧ x < 3

/-- Source `calculateTempo`: fewer than 3 onsets or no usable interval gives
the default 120; otherwise the median interval is converted to BPM and the
result is `Math.round(Math.max(60, Math.min(180, bpm)))`. -/
def calculateTempo (onsets : List ℚ) : ℤ :=
  if onsets.length < 3 then 120
  else
    let intervals := tempoIntervals onsets
    if intervals.length = 0 then 120
    else
      let sorted := List.insertionSort (· ≤ ·) intervals
      let medianInterval := sorted.getD (intervals.length / 2) 0
      let bpm := 60 / medianInterval
      round (max 60 (min 180 bpm))

/-- The result object `{ notes: consolidatedNotes, tempo }` of `processAudio`. -/
structure ProcessResult where
  notes : List MidiNote
  tempo : ℤ

/-- Source `processAudio`: consolidated notes plus the tempo estimate. -/
noncomputable def processAudio (data : List ℝ) (sampleRate : ℚ) : ProcessResult :=
  { notes := consolidateNotes (processAudioRawNotes data sampleRate)
    tempo := calculateTempo (processAudioOnsets data sampleRate) }

/-- Hamming factor applied to sample `j` of a window of size `W` in the
main-thread `detectPitchFromBuffer`:
`window[j] *= 0.54 - 0.46 * Math.cos(2 * Math.PI * j / (windowSize - 1))`. -/
noncomputable def hammingAt (W j : ℕ) (x : ℝ) : ℝ :=
  x * (0.54 - 0.46 * Real.cos (2 * Real.pi * j / ((W : ℝ) - 1)))

/-- The in-place tapering loop `for (let j = 0; j < windowSize; j++)`,
carrying the running index. -/
noncomputable def hammingGo (W : ℕ) : ℕ → List ℝ → List ℝ
  | _, [] => []
  | j, x :: xs => hammingAt W j x :: hammingGo W (j + 1) xs

/-- Hamming taper of a whole window. -/
noncomputable def hammingTaper (w : List ℝ) : List ℝ := hammingGo w.length 0 w

/-- The analysis window prepared by the main-thread `detectPitchFromBuffer`
(`Index.tsx` variant): a 2048-sample slice with the Hamming taper applied in
place before pitch detection. -/
noncomputable def mainThreadWindow (data : List ℝ) (i : ℕ) : List ℝ :=
  hammingTaper (slice data i (i + 2048))

/-- A pending note-off `{ time, pitch }` as queued by `createMidiFile`. -/
structure NoteOff where
  time : ℚ
  pitch : ℤ
  deriving DecidableEq, Repr

/-- Comparison key of the comparator `(a, b) => a.time - b.time` on pending
note-offs. -/
def offLE (a b : NoteOff) : Prop := a.time ≤ b.time

instance : DecidableRel offLE := fun a b => inferInstanceAs (Decidable (a.time ≤ b.time))

instance : IsTotal NoteOff offLE := ⟨fun a b => le_total a.time b.time⟩

instance : IsTrans NoteOff offLE := ⟨fun _ _ _ h1 h2 => le_trans h1 h2⟩

/-- One channel-voice event of the track, tagged with the absolute time at
which it is emitted (the value `currentTime` holds right after emitting it). -/
structure MidiEvent where
  time : ℚ
  status : ℤ
  data1 : ℤ
  data2 : ℤ
  deriving DecidableEq, Repr

/-- The note-off message `events.push(0x80, noteOff.pitch, 0x40)`. -/
def offEvent (o : NoteOff) : MidiEvent := ⟨o.time, 0x80, o.pitch, 0x40⟩

/-- The event-emission loop of `createMidiFile` over the sorted notes.  For
each note, pending note-offs with `time <= noteOnTime` are flushed from the
front of the queue, the note-on is emitted, and the note's own note-off is
pushed and the queue re-sorted by time; after the last note the remaining
queue is flushed in order. -/
def emitGo : List MidiNote → List NoteOff → List MidiEvent
  | [], noteOffs => noteOffs.map offEvent
  | note :: rest, noteOffs =>
    (noteOffs.takeWhile fun o => o.time ≤ note.time).map offEvent
      ++ ⟨note.time, 0x90, note.pitch, note.velocity⟩
      :: emitGo rest
          (List.insertionSort offLE
            ((noteOffs.dropWhile fun o => o.time ≤ note.time)
              ++ [⟨note.time + note.duration, note.pitch⟩]))

/-- The full event stream of `createMidiFile notes` (notes sorted on a copy
first, initial `currentTime = 0`, empty note-off queue). -/
def emitEvents (notes : List MidiNote) : List MidiEvent :=
  emitGo (List.insertionSort timeLE notes) []

/-- The absolute emission times of an event stream. -/
def eventTimes (es : List MidiEvent) : List ℚ := es.map MidiEvent.time

/-- The absolute times of the note-off events of a stream, in stream order. -/
def offTimes (es : List MidiEvent) : List ℚ :=
  es.filterMap fun e => if e.status = 0x80 then some e.time else none

/-- The delta-times handed to `writeVarLength`, reconstructed from the
absolute times: `deltaTime = Math.round((e.time - currentTime) * 480)` where
`currentTime` is the time of the previous emitted event (initially 0). -/
def eventDeltas (currentTime : ℚ) : List MidiEvent → List ℤ
  | [] => []
  | e :: rest => round ((e.time - currentTime) * 480) :: eventDeltas e.time rest

/-- Source `writeVarLength` (`Index.tsx`): the four explicit size branches. -/
def writeVarLength (value : ℕ) : List ℕ :=
  if value < 0x80 then [value]
  else if value < 0x4000 then
    [(value >>> 7) ||| 0x80,
     value &&& 0x7F]
  else if value < 0x200000 then
    [(value >>> 14) ||| 0x80,
     ((value >>> 7) &&& 0x7F) ||| 0x80,
     value &&& 0x7F]
  else
    [(value >>> 21) ||| 0x80,
     ((value >>> 14) &&& 0x7F) ||| 0x80,
     ((value >>> 7) &&& 0x7F) ||| 0x80,
     value &&& 0x7F]

/-- `writeVarLength` on a possibly negative JS number: a value below `0x80`
(in particular any negative delta) is pushed as a single array entry by the
first branch; nonnegative values agree with the `ℕ` version. -/
def writeVarLengthInt (value : ℤ) : List ℤ :=
  if value < 0x80 then [value] else (writeVarLength value.toNat).map Int.ofNat

/-- The raw `events` array of `createMidiFile`: each event contributes its
variable-length delta followed by the 3-byte message, and the end-of-track
marker `0x00 0xFF 0x2F 0x00` closes the list. -/
def eventBytes (currentTime : ℚ) : List MidiEvent → List ℤ
  | [] => [0x00, 0xFF, 0x2F, 0x00]
  | e :: rest =>
    writeVarLengthInt (round ((e.time - currentTime) * 480))
      ++ e.status :: e.data1 :: e.data2 :: eventBytes e.time rest

/-- Big-endian 32-bit length field of the track chunk. -/
def be32 (n : ℕ) : List ℕ :=
  [(n >>> 24) &&& 0xFF, (n >>> 16) &&& 0xFF, (n >>> 8) &&& 0xFF, n &&& 0xFF]

/-- The 14-byte file header with `ticksPerQuarter = 480`. -/
def midiHeader : List ℕ :=
  [0x4D, 0x54, 0x68, 0x64,
   0x00, 0x00, 0x00, 0x06,
   0x00, 0x00,
   0x00, 0x01,
   (480 >>> 8) &&& 0xFF, 480 &&& 0xFF]

/-- Storing a JS number into a `Uint8Array` keeps its value modulo 256. -/
def toUint8 (b : ℤ) : ℕ := (b % 256).toNat

/-- Source `createMidiFile`: header chunk, then the `MTrk` chunk with its
big-endian byte length and the event bytes. -/
def createMidiFile (notes : List MidiNote) : List ℕ :=
  let trackData := (eventBytes 0 (emitEvents notes)).map toUint8
  midiHeader ++ [0x4D, 0x54, 0x72, 0x6B] ++ be32 trackData.length ++ trackData

/-- A call to `createMidiFile` observed together with the caller's array
after it returns.  The function's only operation on its argument is the
spread copy `const sortedNotes = [...notes].sort(...)` — the in-place sort
acts on the copy — so the caller-visible array is the argument unchanged. -/
def createMidiFileCall (notes : List MidiNote) : List ℕ × List MidiNote :=
  (createMidiFile notes, notes)

/-- The note-event invariants of the data model: pitch in `[36, 96]`,
velocity in `[0, 127]`, positive duration, nonnegative onset time. -/
def NoteOK (n : MidiNote) : Prop :=
  (36 ≤ n.pitch ∧ n.pitch ≤ 96) ∧ (0 ≤ n.velocity ∧ n.velocity ≤ 127) ∧
    0 < n.duration ∧ 0 ≤ n.time

/-- Modelled from the spec: the big-endian base-128 digit list of a value
(a single digit `[n]` for `n < 128`). -/
def base128 (n : ℕ) : List ℕ :=
  if _h : n < 128 then [n] else base128 (n / 128) ++ [n % 128]
decreasing_by exact Nat.div_lt_self (by omega) (by omega)

/-- Modelled from the spec: set the most-significant bit (add `0x80`) on
every digit except the last. -/
def vlqMark : List ℕ → List ℕ
  | [] => []
  | [b] => [b]
  | b :: rest => (b + 128) :: vlqMark rest

/-- Modelled from the spec: the standard MIDI variable-length-quantity
encoding — big-endian base-128 digits with the continuation bit set on all
but the last byte. -/
def vlqEncode (n : ℕ) : List ℕ := vlqMark (base128 n)

/-- Decoder for variable-length quantities (7 payload bits per byte). -/
def vlqDecode (bytes : List ℕ) : ℕ :=
  bytes.foldl (fun acc b => acc * 128 + b % 128) 0

/-- Spec-side variant of the consolidation loop, for comparison: identical
to `consolidateGo` except that the time-gap test measures the new frame
against the accumulator's current end `onset_time + duration` instead of
its onset. -/
def consolidateGoSpec : MidiNote → List MidiNote → List MidiNote
  | currentNote, [] => if 0.05 ≤ currentNote.duration then [currentNote] else []
  | currentNote, note :: rest =>
    if |currentNote.pitch - note.pitch| ≤ 1 ∧
        note.time - (currentNote.time + currentNote.duration) < 0.2 then
      consolidateGoSpec
        { currentNote with
          duration := note.time + note.duration - currentNote.time
          velocity := max currentNote.velocity note.velocity } rest
    else
      (if 0.05 ≤ currentNote.duration then [currentNote] else [])
        ++ consolidateGoSpec note rest

/-- Modelled from the spec: `consolidateNotes` with the end-based merge rule
the specification describes. -/
def consolidateNotesSpec (notes : List MidiNote) : List MidiNote :=
  match List.insertionSort timeLE notes with
  | [] => []
  | first :: rest => consolidateGoSpec first rest

/-! ### Helper lemmas -/

theorem le_round_int {α : Type} [LinearOrderedField α] [FloorRing α] {lo : ℤ} {x : α}
    (h : (lo : α) ≤ x) : lo ≤ round x := by
  rw [round_eq]
  exact Int.le_floor.mpr (by linarith)

theorem round_le_int {α : Type} [LinearOrderedField α] [FloorRing α] {hi : ℤ} {x : α}
    (h : x ≤ (hi : α)) : round x ≤ hi := by
  rw [round_eq]
  have hlt : ⌊x + 1 / 2⌋ < hi + 1 := Int.floor_lt.mpr (by push_cast; linarith)
  omega

theorem lor_128_of_lt : ∀ a : ℕ, a < 128 → a ||| 128 = a + 128 := by decide

theorem and_127_eq_mod (x : ℕ) : x &&& 127 = x % 128 := by
  have h := Nat.and_pow_two_sub_one_eq_mod x 7
  norm_num at h
  exact h

theorem base128_lt {n : ℕ} (h : n < 128) : base128 n = [n] := by
  rw [base128]
  simp [h]

theorem base128_ge {n : ℕ} (h : 128 ≤ n) : base128 n = base128 (n / 128) ++ [n % 128] := by
  rw [base128]
  simp [Nat.not_lt.mpr h]

/-! ### Claim theorems: encoder byte level -/

/-- C5.  Encoding an empty note list gives exactly the 26 bytes of the
claim: the 14-byte `MThd` chunk (format 0, one track, 480 ticks per
quarter big-endian), the 8-byte `MTrk` chunk header with big-endian
length 4, and the end-of-track marker `00 FF 2F 00`. -/
theorem c5_empty_file_bytes :
    createMidiFile [] =
      [0x4D, 0x54, 0x68, 0x64, 0x00, 0x00, 0x00, 0x06, 0x00, 0x00, 0x00, 0x01, 0x01, 0xE0,
       0x4D, 0x54, 0x72, 0x6B, 0x00, 0x00, 0x00, 0x04, 0x00, 0xFF, 0x2F, 0x00] ∧
      (createMidiFile []).length = 26 := by
  constructor <;> decide

/-- C10.  A call to `createMidiFile` leaves the caller's notes array
exactly as it was (same notes, same order, every field unchanged): the
encoder sorts the spread copy `[...notes]`, never the argument. -/
theorem c10_createMidiFile_preserves_argument :
    ∀ notes : List MidiNote, (createMidiFileCall notes).2 = notes :=
  fun _ => rfl

/-- C4 (code bug).  A delta-time of `2^28` ticks needs five
variable-length-quantity bytes, but `writeVarLength` silently emits the
four bytes `80 80 80 00` — which decode to 0 — instead of failing: no
error path exists, and the result differs from the correct encoding. -/
theorem c4_overflow_silently_truncates :
    writeVarLength (2 ^ 28) = [0x80, 0x80, 0x80, 0x00] ∧
    vlqDecode (writeVarLength (2 ^ 28)) = 0 ∧
    vlqEncode (2 ^ 28) = [0x81, 0x80, 0x80, 0x80, 0x00] ∧
    writeVarLength (2 ^ 28) ≠ vlqEncode (2 ^ 28) := by
  have h1 : writeVarLength (2 ^ 28) = [0x80, 0x80, 0x80, 0x00] := by decide
  have h2 : vlqEncode (2 ^ 28) = [0x81, 0x80, 0x80, 0x80, 0x00] := by
    rw [show (2 : ℕ) ^ 28 = 268435456 by norm_num, vlqEncode,
      base128_ge (by norm_num), show (268435456 : ℕ) / 128 = 2097152 by norm_num,
      show (268435456 : ℕ) % 128 = 0 by norm_num,
      base128_ge (by norm_num), show (2097152 : ℕ) / 128 = 16384 by norm_num,
      show (2097152 : ℕ) % 128 = 0 by norm_num,
      base128_ge (by norm_num), show (16384 : ℕ) / 128 = 128 by norm_num,
      show (16384 : ℕ) % 128 = 0 by norm_num,
      base128_ge (by norm_num), show (128 : ℕ) / 128 = 1 by norm_num,
      show (128 : ℕ) % 128 = 0 by norm_num,
      base128_lt (by norm_num)]
    rfl
  refine ⟨h1, by decide, h2, ?_⟩
  rw [h1, h2]
  decide

/-! ### Claim theorems: YIN parabolic interpolation (C9) -/

/-- C9 counterexample.  On the concrete frame below the threshold scan
succeeds (at lag 6, with `d'(6) = 3/32 < 0.1`), yet the unguarded
parabolic interpolation produces the refined period `-4` and
`detectPitchYIN` returns the non-positive value `-2`: the returned
quantity is not a positive frequency, contradicting the claim. -/
theorem c9_counterexample :
    yinScan ([-1, -1/2, 0, 1, 2, -1, -2] : List ℚ) 8 1 3 = some 6 ∧
    (0 : ℚ) < 8 ∧
    yinBetterTau ([-1, -1/2, 0, 1, 2, -1, -2] : List ℚ) 8 1 3 6 = -4 ∧
    detectPitchYIN ([-1, -1/2, 0, 1, 2, -1, -2] : List ℚ) 8 1 3 = -2 ∧
    ¬ 0 < detectPitchYIN ([-1, -1/2, 0, 1, 2, -1, -2] : List ℚ) 8 1 3 := by
  refine ⟨by with_unfolding_all decide, by decide, by with_unfolding_all decide,
    by with_unfolding_all decide, by with_unfolding_all decide⟩

/-- C9 amended.  The interpolation step has no division-by-zero or sign
guard; what holds is: whenever the threshold scan succeeds and the
refined period `betterTau` happens to be positive, the returned value
`sampleRate / betterTau` is a positive (finite) frequency.  When the
refined period is not positive the function can return a non-positive
value, which the caller discards through its `pitch > 0` check. -/
theorem c9_amended_positive_when_period_positive {α : Type} [LinearOrderedField α]
    [FloorRing α] :
    ∀ (buffer : List α) (sampleRate minFreq maxFreq : α) (tau : ℕ),
      0 < sampleRate →
      yinScan buffer sampleRate minFreq maxFreq = some tau →
      0 < yinBetterTau buffer sampleRate minFreq maxFreq tau →
      0 < detectPitchYIN buffer sampleRate minFreq maxFreq := by
  intro buffer sr minF maxF tau hsr hscan hbt
  unfold detectPitchYIN
  rw [hscan]
  exact div_pos hsr hbt

/-- Witness for the amended C9 theorem at a concrete periodic buffer. -/
theorem c9_amended_witness :
    (0 : ℚ) < 8 ∧
    yinScan ([1, 0, 0, 1, 0, 0, 1, 0, 0] : List ℚ) 8 1 4 = some 3 ∧
    0 < yinBetterTau ([1, 0, 0, 1, 0, 0, 1, 0, 0] : List ℚ) 8 1 4 3 ∧
    0 < detectPitchYIN ([1, 0, 0, 1, 0, 0, 1, 0, 0] : List ℚ) 8 1 4 :=
  ⟨by decide, by with_unfolding_all decide, by with_unfolding_all decide,
    c9_amended_positive_when_period_positive ([1, 0, 0, 1, 0, 0, 1, 0, 0] : List ℚ) 8 1 4 3
      (by decide) (by with_unfolding_all decide) (by with_unfolding_all decide)⟩

/-! ### Claim theorems: note consolidation (C7) -/

/-- C7 counterexample.  On two same-pitch notes at times 0 and 1/2 (the
first lasting a full second), the spec's end-based merge rule would merge
(the new frame starts before the accumulator's end, so the gap from
`onset + duration` is negative), but `consolidateNotes` does not merge —
its gap test measures from the accumulator's onset (`1/2 - 0 ≥ 0.2`).
The two readings give different results, refuting the claim as stated. -/
theorem c7_counterexample :
    consolidateNotes [⟨0, 60, 1, 64⟩, ⟨1/2, 60, 1/10, 64⟩] =
      [⟨0, 60, 1, 64⟩, ⟨1/2, 60, 1/10, 64⟩] ∧
    consolidateNotesSpec [⟨0, 60, 1, 64⟩, ⟨1/2, 60, 1/10, 64⟩] = [⟨0, 60, 3/5, 64⟩] ∧
    consolidateNotes [⟨0, 60, 1, 64⟩, ⟨1/2, 60, 1/10, 64⟩] ≠
      consolidateNotesSpec [⟨0, 60, 1, 64⟩, ⟨1/2, 60, 1/10, 64⟩] := by
  refine ⟨by with_unfolding_all decide, by with_unfolding_all decide,
    by with_unfolding_all decide⟩

/-- C2.  `writeVarLength` implements the standard variable-length-quantity
encoding: the five concrete vectors of the claim, and in general, for every
value below `2^28`, the output is the big-endian base-128 digit string with
the continuation bit set on every byte but the last. -/
theorem c2_writeVarLength_standard :
    (writeVarLength 0 = [0x00] ∧ writeVarLength 127 = [0x7F] ∧
      writeVarLength 128 = [0x81, 0x00] ∧ writeVarLength 16383 = [0xFF, 0x7F] ∧
      writeVarLength 16384 = [0x81, 0x80, 0x00]) ∧
    ∀ value : ℕ, value < 2 ^ 28 → writeVarLength value = vlqEncode value := by
  refine ⟨⟨by decide, by decide, by decide, by decide, by decide⟩, ?_⟩
  intro v hv
  have hv28 : v < 268435456 := by
    have : (2 : ℕ) ^ 28 = 268435456 := by norm_num
    omega
  have e7 : v >>> 7 = v / 128 := by
    rw [Nat.shiftRight_eq_div_pow]
  have e14 : v >>> 14 = v / 16384 := by
    rw [Nat.shiftRight_eq_div_pow]
  have e21 : v >>> 21 = v / 2097152 := by
    rw [Nat.shiftRight_eq_div_pow]
  have d2 : v / 128 / 128 = v / 16384 := by
    rw [Nat.div_div_eq_div_mul]
  have d3 : v / 16384 / 128 = v / 2097152 := by
    rw [Nat.div_div_eq_div_mul]
  by_cases h1 : v < 128
  · rw [writeVarLength, if_pos h1, vlqEncode, base128_lt h1, vlqMark]
  · have h1' : 128 ≤ v := Nat.not_lt.mp h1
    by_cases h2 : v < 16384
    · have hd1 : v / 128 < 128 := by omega
      have hw : writeVarLength v = [(v >>> 7) ||| 128, v &&& 127] := by
        rw [writeVarLength, if_neg h1, if_pos h2]
      have hm : vlqEncode v = [v / 128 + 128, v % 128] := by
        rw [vlqEncode, base128_ge h1', base128_lt hd1]
        simp [vlqMark]
      rw [hw, hm, e7, and_127_eq_mod, lor_128_of_lt _ hd1]
    · have h2' : 16384 ≤ v := Nat.not_lt.mp h2
      by_cases h3 : v < 2097152
      · have hd2 : v / 16384 < 128 := by omega
        have hd1' : 128 ≤ v / 128 := by omega
        have hmid : v / 128 % 128 < 128 := Nat.mod_lt _ (by norm_num)
        have hw : writeVarLength v =
            [(v >>> 14) ||| 128, ((v >>> 7) &&& 127) ||| 128, v &&& 127] := by
          rw [writeVarLength, if_neg h1, if_neg h2, if_pos h3]
        have hm : vlqEncode v = [v / 16384 + 128, v / 128 % 128 + 128, v % 128] := by
          rw [vlqEncode, base128_ge h1', base128_ge hd1', base128_lt (d2 ▸ hd2), d2]
          simp [vlqMark]
        rw [hw, hm, e7, e14, and_127_eq_mod, and_127_eq_mod,
          lor_128_of_lt _ hd2, lor_128_of_lt _ hmid]
      · have h3' : 2097152 ≤ v := Nat.not_lt.mp h3
        have hd3 : v / 2097152 < 128 := by omega
        have hd2' : 128 ≤ v / 16384 := by omega
        have hd1' : 128 ≤ v / 128 := by omega
        have hmid1 : v / 128 % 128 < 128 := Nat.mod_lt _ (by norm_num)
        have hmid2 : v / 16384 % 128 < 128 := Nat.mod_lt _ (by norm_num)
        have hw : writeVarLength v =
            [(v >>> 21) ||| 128, ((v >>> 14) &&& 127) ||| 128,
             ((v >>> 7) &&& 127) ||| 128, v &&& 127] := by
          rw [writeVarLength, if_neg h1, if_neg h2, if_neg h3]
        have hm : vlqEncode v =
            [v / 2097152 + 128, v / 16384 % 128 + 128, v / 128 % 128 + 128, v % 128] := by
          rw [vlqEncode, base128_ge h1', base128_ge hd1', d2, base128_ge hd2',
            base128_lt (d3 ▸ hd3), d3]
          simp [vlqMark]
        rw [hw, hm, e7, e14, e21, and_127_eq_mod, and_127_eq_mod, and_127_eq_mod,
          lor_128_of_lt _ hd3, lor_128_of_lt _ hmid2, lor_128_of_lt _ hmid1]

/-- Witness for C2 at the concrete delta-time 16384. -/
theorem c2_witness :
    16384 < 2 ^ 28 ∧ writeVarLength 16384 = vlqEncode 16384 :=
  ⟨by decide, c2_writeVarLength_standard.2 16384 (by decide)⟩

/-- C6.  `calculateTempo` always returns a tempo in `[60, 180]`; with fewer
than 3 onsets, or when no consecutive inter-onset interval lies in the open
range `(0.2, 3.0)`, it returns the default 120. -/
theorem c6_calculateTempo_spec :
    ∀ onsets : List ℚ,
      (60 ≤ calculateTempo onsets ∧ calculateTempo onsets ≤ 180) ∧
      (onsets.length < 3 → calculateTempo onsets = 120) ∧
      ((∀ x ∈ iois onsets, ¬(0.2 < x ∧ x < 3)) → calculateTempo onsets = 120) := by
  intro onsets
  refine ⟨?_, fun h => by rw [calculateTempo, if_pos h], fun h => ?_⟩
  · by_cases h3 : onsets.length < 3
    · rw [calculateTempo, if_pos h3]; norm_num
    · by_cases hi : (tempoIntervals onsets).length = 0
      · rw [calculateTempo, if_neg h3]
        simp only [if_pos hi]
        norm_num
      · rw [calculateTempo, if_neg h3]
        simp only [if_neg hi]
        constructor
        · exact le_round_int (by push_cast; exact le_max_left _ _)
        · exact round_le_int (by push_cast; exact max_le (by norm_num) (min_le_left _ _))
  · by_cases h3 : onsets.length < 3
    · rw [calculateTempo, if_pos h3]
    · have hnil : tempoIntervals onsets = [] := by
        rw [tempoIntervals]
        exact List.filter_eq_nil_iff.mpr fun a ha => by simpa using h a ha
      rw [calculateTempo, if_neg h3]
      simp [hnil]

/-- Witness for C6 at a concrete onset list with fewer than 3 onsets and no
usable interval. -/
theorem c6_witness :
    (60 ≤ calculateTempo [0, 5] ∧ calculateTempo [0, 5] ≤ 180) ∧
    calculateTempo [0, 5] = 120 :=
  ⟨(c6_calculateTempo_spec [0, 5]).1,
    (c6_calculateTempo_spec [0, 5]).2.1 (by decide)⟩

/-- C7 amended.  For two time-ordered notes that each pass the minimum
duration filter, `consolidateNotes` merges them if and only if their
pitches differ by at most 1 and the second onset is within 0.2 s of the
first onset (the gap is measured from the accumulator's onset, not from
its end `onset + duration`); on continuation the merged note keeps the
first onset, gets duration `frame_time + frame_duration - onset_time`
and the maximum of the two velocities. -/
theorem c7_amended_merge_rule :
    ∀ a b : MidiNote, a.time ≤ b.time → 0.05 ≤ a.duration → 0.05 ≤ b.duration →
      ((consolidateNotes [a, b]).length = 1 ↔
        (|a.pitch - b.pitch| ≤ 1 ∧ b.time - a.time < 0.2)) ∧
      ((|a.pitch - b.pitch| ≤ 1 ∧ b.time - a.time < 0.2) →
        consolidateNotes [a, b] =
          [{ a with duration := b.time + b.duration - a.time,
                    velocity := max a.velocity b.velocity }]) := by
  intro a b hab ha hb
  have hsort : List.insertionSort timeLE [a, b] = [a, b] := by
    simp [List.insertionSort, List.orderedInsert, timeLE, hab]
  have hgo : consolidateNotes [a, b] = consolidateGo a [b] := by
    rw [consolidateNotes, hsort]
  by_cases hm : |a.pitch - b.pitch| ≤ 1 ∧ b.time - a.time < 0.2
  · have hdur : (0.05 : ℚ) ≤ b.time + b.duration - a.time := by linarith
    have : consolidateGo a [b] =
        [{ a with duration := b.time + b.duration - a.time,
                  velocity := max a.velocity b.velocity }] := by
      rw [consolidateGo, if_pos hm, consolidateGo, if_pos hdur]
    rw [hgo, this]
    exact ⟨by simp [hm], fun _ => rfl⟩
  · have : consolidateGo a [b] = [a, b] := by
      rw [consolidateGo, if_neg hm, if_pos ha, consolidateGo, if_pos hb]
      rfl
    rw [hgo, this]
    exact ⟨by simp [hm], fun hc => absurd hc hm⟩

/-- Witness for the amended C7 merge rule at a concrete merging pair. -/
theorem c7_amended_witness :
    ((consolidateNotes [⟨0, 60, 1/10, 50⟩, ⟨1/10, 60, 1/10, 70⟩]).length = 1 ↔
      (|(⟨0, 60, 1/10, 50⟩ : MidiNote).pitch - (⟨1/10, 60, 1/10, 70⟩ : MidiNote).pitch| ≤ 1 ∧
        (⟨1/10, 60, 1/10, 70⟩ : MidiNote).time - (⟨0, 60, 1/10, 50⟩ : MidiNote).time < 0.2)) ∧
    consolidateNotes [⟨0, 60, 1/10, 50⟩, ⟨1/10, 60, 1/10, 70⟩] = [⟨0, 60, 1/5, 70⟩] := by
  have H := c7_amended_merge_rule ⟨0, 60, 1/10, 50⟩ ⟨1/10, 60, 1/10, 70⟩
    (by with_unfolding_all decide) (by with_unfolding_all decide) (by with_unfolding_all decide)
  refine ⟨H.1, ?_⟩
  have := H.2 (by with_unfolding_all decide)
  rw [this]
  with_unfolding_all decide

/-- Helper: pointwise description of `hammingGo` at any index. -/
theorem hammingGo_getD :
    ∀ (l : List ℝ) (W j0 j : ℕ),
      (hammingGo W j0 l).getD j 0 =
        l.getD j 0 * (0.54 - 0.46 * Real.cos (2 * Real.pi * ((j0 + j : ℕ) : ℝ) / ((W : ℝ) - 1))) := by
  intro l
  induction l with
  | nil => intro W j0 j; simp [hammingGo]
  | cons x xs ih =>
    intro W j0 j
    cases j with
    | zero => simp [hammingGo, hammingAt]
    | succ k =>
      have := ih W (j0 + 1) k
      simp only [hammingGo, List.getD_cons_succ, this]
      norm_num [Nat.add_assoc, Nat.add_comm 1 k]

/-- C8 amended.  The main-thread `detectPitchFromBuffer` path does taper
its windows in place — every sample of `mainThreadWindow` equals the raw
slice sample multiplied by the Hamming factor
`0.54 - 0.46 cos(2 pi j / (W - 1))` — but the worker's `processAudio`
applies no taper at all: the window handed to `detectPitchYIN` is the raw
slice of the input. -/
theorem c8_amended_taper_paths :
    (∀ (w : List ℝ) (j : ℕ),
      (hammingTaper w).getD j 0 =
        w.getD j 0 * (0.54 - 0.46 * Real.cos (2 * Real.pi * (j : ℝ) / ((w.length : ℝ) - 1)))) ∧
    (∀ (data : List ℝ) (i : ℕ),
      mainThreadWindow data i = hammingTaper (slice data i (i + 2048))) ∧
    (∀ (data : List ℝ) (i : ℕ), frameWindow data i = slice data i (i + 1024)) := by
  refine ⟨?_, fun _ _ => rfl, fun _ _ => rfl⟩
  intro w j
  have h := hammingGo_getD w w.length 0 j
  simpa using h

/-- C8 counterexample.  On a constant buffer of 3072 samples the worker
loop visits index 1024 and hands `detectPitchYIN` the raw, untapered
window (all ones); that window differs from its Hamming-tapered version
(whose first sample would be `0.54 - 0.46 = 0.08`), refuting the claim
that every analysis window is tapered before pitch estimation. -/
theorem c8_counterexample_worker_untapered :
    1024 ∈ pitchFrameIndices (List.replicate 3072 (1 : ℝ)).length ∧
    frameWindow (List.replicate 3072 (1 : ℝ)) 1024 = List.replicate 1024 (1 : ℝ) ∧
    frameWindow (List.replicate 3072 (1 : ℝ)) 1024 ≠
      hammingTaper (frameWindow (List.replicate 3072 (1 : ℝ)) 1024) := by
  have hwin : frameWindow (List.replicate 3072 (1 : ℝ)) 1024 = List.replicate 1024 (1 : ℝ) := by
    rw [frameWindow, slice, List.drop_replicate, List.take_replicate]
    norm_num
  refine ⟨?_, hwin, ?_⟩
  · rw [List.length_replicate]; decide
  · rw [hwin]
    intro heq
    have h0 := congrArg (fun l => l.getD 0 0) heq
    simp only at h0
    have h1 : (List.replicate 1024 (1 : ℝ)).getD 0 0 = 1 := by
      rw [show (1024 : ℕ) = 1023 + 1 by norm_num, List.replicate_succ, List.getD_cons_zero]
    have h2 : (hammingTaper (List.replicate 1024 (1 : ℝ))).getD 0 0 = 0.54 - 0.46 := by
      rw [hammingTaper, hammingGo_getD, h1]
      norm_num
    rw [h1, h2] at h0
    norm_num at h0

/-- Helper: any note emitted by the worker's per-frame branch satisfies the
data-model invariants (for a positive sample rate). -/
theorem frameNote_ok {data : List ℝ} {sampleRate : ℚ} {i : ℕ} {n : MidiNote}
    (hsr : 0 < sampleRate) (h : frameNote data sampleRate i = some n) : NoteOK n := by
  rw [frameNote] at h
  split_ifs at h with h1 h2 h3
  · have hn : n =
        { time := (i : ℚ) / sampleRate
          pitch := round (frameMidi data sampleRate i)
          duration := 256 / sampleRate
          velocity := min 127 (max 30 ⌊frameEnergy data i * 150⌋) } := by
      injection h with h
      exact h.symm
    subst hn
    refine ⟨⟨?_, ?_⟩, ⟨?_, ?_⟩, ?_, ?_⟩
    · exact le_round_int (by push_cast; exact h3.1)
    · exact round_le_int (by push_cast; exact h3.2)
    · exact le_min (by norm_num) (le_trans (by norm_num) (le_max_left 30 _))
    · exact min_le_left _ _
    · exact div_pos (by norm_num) hsr
    · exact div_nonneg (by positivity) hsr.le

/-- Helper: the consolidation loop preserves the note invariants, given that
the remaining notes are time-sorted and start no earlier than the
accumulator (so that merged durations stay positive). -/
theorem consolidateGo_ok :
    ∀ (rest : List MidiNote) (cur : MidiNote),
      NoteOK cur → (∀ m ∈ rest, NoteOK m) → (∀ m ∈ rest, cur.time ≤ m.time) →
      List.Sorted timeLE rest → ∀ n ∈ consolidateGo cur rest, NoteOK n := by
  intro rest
  induction rest with
  | nil =>
    intro cur hcur _ _ _ n hn
    rw [consolidateGo] at hn
    split_ifs at hn
    · rw [List.mem_singleton] at hn
      exact hn ▸ hcur
    · exact absurd hn (List.not_mem_nil n)
  | cons note rest ih =>
    intro cur hcur hall hlb hsort n hn
    rw [consolidateGo] at hn
    by_cases hm : |cur.pitch - note.pitch| ≤ 1 ∧ note.time - cur.time < 0.2
    · rw [if_pos hm] at hn
      obtain ⟨⟨hp1, hp2⟩, ⟨hv1, hv2⟩, hd, ht⟩ := hcur
      obtain ⟨_, ⟨hv1n, hv2n⟩, hdn, _⟩ := hall note (List.mem_cons_self note rest)
      have hcn : cur.time ≤ note.time := hlb note (List.mem_cons_self note rest)
      have hmerged : NoteOK
          { cur with duration := note.time + note.duration - cur.time,
                     velocity := max cur.velocity note.velocity } := by
        refine ⟨⟨hp1, hp2⟩, ⟨?_, ?_⟩, ?_, ht⟩
        · exact le_trans hv1 (le_max_left _ _)
        · exact max_le hv2 hv2n
        · dsimp only
          linarith
      exact ih _ hmerged (fun m hm' => hall m (List.mem_cons_of_mem note hm'))
        (fun m hm' => hlb m (List.mem_cons_of_mem note hm'))
        hsort.of_cons n hn
    · rw [if_neg hm] at hn
      rcases List.mem_append.mp hn with hn | hn
      · by_cases hdur : (0.05 : ℚ) ≤ cur.duration
        · rw [if_pos hdur, List.mem_singleton] at hn
          exact hn ▸ hcur
        · rw [if_neg hdur] at hn
          exact absurd hn (List.not_mem_nil n)
      · exact ih note (hall note (List.mem_cons_self note rest))
          (fun m hm' => hall m (List.mem_cons_of_mem note hm'))
          (fun m hm' => List.rel_of_sorted_cons hsort m hm')
          hsort.of_cons n hn

/-- Helper: `consolidateNotes` preserves the note invariants. -/
theorem consolidateNotes_ok {notes : List MidiNote}
    (h : ∀ m ∈ notes, NoteOK m) : ∀ n ∈ consolidateNotes notes, NoteOK n := by
  intro n hn
  rw [consolidateNotes] at hn
  rcases hs : List.insertionSort timeLE notes with _ | ⟨first, rest⟩
  · rw [hs] at hn
    exact absurd hn (List.not_mem_nil n)
  · rw [hs] at hn
    have hsorted : List.Sorted timeLE (first :: rest) := by
      rw [← hs]
      exact List.sorted_insertionSort timeLE notes
    have hmem : ∀ m ∈ first :: rest, NoteOK m := by
      intro m hm
      refine h m ?_
      exact (List.perm_insertionSort timeLE notes).subset (hs ▸ hm)
    exact consolidateGo_ok rest first (hmem first (List.mem_cons_self first rest))
      (fun m hm => hmem m (List.mem_cons_of_mem first hm))
      (fun m hm => List.rel_of_sorted_cons hsorted m hm)
      hsorted.of_cons n hn

/-- C1.  Every note event produced by the worker pipeline (`processAudio`,
i.e. the per-frame emission followed by `consolidateNotes`) has integer
pitch in `[36, 96]`, integer velocity in `[0, 127]`, positive duration and
nonnegative onset time; and a frame whose mapped MIDI number falls outside
`[36, 96]` produces no note event at all — it is dropped, never clamped. -/
theorem c1_pipeline_note_invariants :
    ∀ (data : List ℝ) (sampleRate : ℚ), 0 < sampleRate →
      (∀ n ∈ (processAudio data sampleRate).notes, NoteOK n) ∧
      (∀ i : ℕ, frameMidi data sampleRate i < 36 ∨ 96 < frameMidi data sampleRate i →
        frameNote data sampleRate i = none) := by
  intro data sampleRate hsr
  constructor
  · have hraw : ∀ m ∈ processAudioRawNotes data sampleRate, NoteOK m := by
      intro m hm
      rw [processAudioRawNotes, List.mem_filterMap] at hm
      obtain ⟨i, _, hfi⟩ := hm
      exact frameNote_ok hsr hfi
    exact consolidateNotes_ok hraw
  · intro i h
    rw [frameNote]
    split_ifs with h1 h2 h3
    · rcases h with h | h
      · exact absurd h3.1 (by linarith)
      · exact absurd h3.2 (by linarith)
    · rfl
    · rfl
    · rfl

/-- Witness for C1 at the empty buffer with sample rate 1. -/
theorem c1_witness :
    (0 : ℚ) < 1 ∧ ∀ n ∈ (processAudio [] 1).notes, NoteOK n :=
  ⟨by decide, (c1_pipeline_note_invariants [] 1 (by decide)).1⟩

/-- Helper: `round` of a nonnegative rational is nonnegative. -/
theorem rat_round_nonneg {q : ℚ} (h : 0 ≤ q) : 0 ≤ round q :=
  le_round_int (by push_cast; linarith)

/-- Helper: members of the flushed prefix are due no later than the note-on. -/
theorem takeWhile_time_le {T : ℚ} {offs : List NoteOff} {o : NoteOff}
    (h : o ∈ offs.takeWhile fun x => x.time ≤ T) : o.time ≤ T := by
  have := List.mem_takeWhile_imp h
  simpa using this

/-- Helper: on a time-sorted queue, everything surviving the flush is due
strictly after the note-on time. -/
theorem sorted_dropWhile_time_gt (T : ℚ) :
    ∀ offs : List NoteOff, List.Sorted offLE offs →
      ∀ o ∈ offs.dropWhile fun x => x.time ≤ T, T < o.time := by
  intro offs
  induction offs with
  | nil =>
    intro _ o ho
    simp [List.dropWhile] at ho
  | cons f fs ih =>
    intro hsort o ho
    by_cases hf : f.time ≤ T
    · rw [List.dropWhile_cons, if_pos (by simpa using hf)] at ho
      exact ih hsort.of_cons o ho
    · rw [List.dropWhile_cons, if_neg (by simpa using hf)] at ho
      rcases List.mem_cons.mp ho with rfl | ho
      · exact not_le.mp hf
      · exact lt_of_lt_of_le (not_le.mp hf) (List.rel_of_sorted_cons hsort o ho)

/-- Helper: the absolute times of the events emitted by `emitGo` are
nondecreasing and bounded below by the current time, provided the note list
is time-sorted with nonnegative durations and the pending queue is
time-sorted with all due times at or after the current time. -/
theorem emitGo_times_ok :
    ∀ (rest : List MidiNote) (offs : List NoteOff) (cur : ℚ),
      List.Sorted offLE offs → (∀ o ∈ offs, cur ≤ o.time) →
      List.Sorted timeLE rest → (∀ n ∈ rest, cur ≤ n.time) →
      (∀ n ∈ rest, 0 ≤ n.duration) →
      List.Sorted (· ≤ ·) ((emitGo rest offs).map MidiEvent.time) ∧
        ∀ t ∈ (emitGo rest offs).map MidiEvent.time, cur ≤ t := by
  intro rest
  induction rest with
  | nil =>
    intro offs cur hsoffs hlb _ _ _
    constructor
    · rw [emitGo, List.map_map]
      exact List.pairwise_map.mpr hsoffs
    · intro t ht
      rw [emitGo, List.map_map] at ht
      obtain ⟨o, ho, rfl⟩ := List.mem_map.mp ht
      exact hlb o ho
  | cons note rest ih =>
    intro offs cur hsoffs hlb hsrest hlbn hdur
    have hcn : cur ≤ note.time := hlbn note (List.mem_cons_self note rest)
    have hnew_sorted : List.Sorted offLE (List.insertionSort offLE
        ((offs.dropWhile fun o => o.time ≤ note.time)
          ++ [⟨note.time + note.duration, note.pitch⟩])) :=
      List.sorted_insertionSort offLE _
    have hnew_lb : ∀ o ∈ List.insertionSort offLE
        ((offs.dropWhile fun o => o.time ≤ note.time)
          ++ [⟨note.time + note.duration, note.pitch⟩]),
        note.time ≤ o.time := by
      intro o ho
      have ho' := (List.perm_insertionSort offLE _).subset ho
      rcases List.mem_append.mp ho' with h | h
      · exact le_of_lt (sorted_dropWhile_time_gt note.time offs hsoffs o h)
      · rw [List.mem_singleton] at h
        subst h
        have := hdur note (List.mem_cons_self note rest)
        dsimp only
        linarith
    have IH := ih _ note.time hnew_sorted hnew_lb hsrest.of_cons
      (fun m hm => List.rel_of_sorted_cons hsrest m hm)
      (fun m hm => hdur m (List.mem_cons_of_mem note hm))
    rw [emitGo, List.map_append, List.map_map, List.map_cons]
    constructor
    · refine List.pairwise_append.mpr ⟨?_, ?_, ?_⟩
      · exact List.pairwise_map.mpr (hsoffs.sublist (List.takeWhile_sublist _))
      · exact List.pairwise_cons.mpr ⟨IH.2, IH.1⟩
      · intro a ha b hb
        obtain ⟨o, ho, rfl⟩ := List.mem_map.mp ha
        have hoT : (offEvent o).time ≤ note.time := takeWhile_time_le ho
        rcases List.mem_cons.mp hb with rfl | hb
        · exact hoT
        · exact le_trans hoT (IH.2 b hb)
    · intro t ht
      rcases List.mem_append.mp ht with ht | ht
      · obtain ⟨o, ho, rfl⟩ := List.mem_map.mp ht
        exact hlb o ((List.takeWhile_sublist _).subset ho)
      · rcases List.mem_cons.mp ht with rfl | ht
        · exact hcn
        · exact le_trans hcn (IH.2 t ht)

/-- Helper: the delta-times derived from a nondecreasing time trace whose
entries are at or after the current time are all nonnegative. -/
theorem eventDeltas_nonneg :
    ∀ (es : List MidiEvent) (c : ℚ),
      List.Sorted (· ≤ ·) (es.map MidiEvent.time) →
      (∀ t ∈ es.map MidiEvent.time, c ≤ t) →
      ∀ d ∈ eventDeltas c es, 0 ≤ d := by
  intro es
  induction es with
  | nil =>
    intro c _ _ d hd
    rw [eventDeltas] at hd
    exact absurd hd (List.not_mem_nil d)
  | cons e rest ih =>
    intro c hs hlb d hd
    rw [List.map_cons] at hs hlb
    rw [eventDeltas] at hd
    rcases List.mem_cons.mp hd with rfl | hd
    · refine rat_round_nonneg (mul_nonneg ?_ (by norm_num))
      have : c ≤ e.time := hlb e.time (List.mem_cons_self _ _)
      linarith
    · exact ih e.time (List.sorted_cons.mp hs).2
        (fun t ht => (List.sorted_cons.mp hs).1 t ht) d hd

/-- Helper: the note-off events of a flushed queue contribute exactly the
queue's due times. -/
theorem offTimes_map_offEvent :
    ∀ offs : List NoteOff, offTimes (offs.map offEvent) = offs.map NoteOff.time := by
  intro offs
  induction offs with
  | nil => rfl
  | cons f fs ih =>
    rw [List.map_cons, offTimes,
      List.filterMap_cons_some (show _ = some f.time by simp [offEvent])]
    rw [offTimes] at ih
    rw [ih, List.map_cons]

/-- Helper: the multiset of note-off emission times of `emitGo` is the
pending queue's due times together with one `onset + duration` per note. -/
theorem emitGo_offTimes_perm :
    ∀ (rest : List MidiNote) (offs : List NoteOff),
      List.Perm (offTimes (emitGo rest offs))
        (offs.map NoteOff.time ++ rest.map fun n => n.time + n.duration) := by
  intro rest
  induction rest with
  | nil =>
    intro offs
    rw [emitGo, offTimes_map_offEvent, List.map_nil, List.append_nil]
  | cons note rest ih =>
    intro offs
    rw [emitGo, offTimes, List.filterMap_append,
      List.filterMap_cons_none (show _ = none by norm_num)]
    have htake := offTimes_map_offEvent (offs.takeWhile fun o => o.time ≤ note.time)
    rw [offTimes] at htake
    rw [htake]
    have h1 := ih (List.insertionSort offLE
      ((offs.dropWhile fun o => o.time ≤ note.time)
        ++ [⟨note.time + note.duration, note.pitch⟩]))
    have h2 : List.Perm
        ((List.insertionSort offLE
          ((offs.dropWhile fun o => o.time ≤ note.time)
            ++ [⟨note.time + note.duration, note.pitch⟩])).map NoteOff.time)
        (((offs.dropWhile fun o => o.time ≤ note.time).map NoteOff.time)
          ++ [note.time + note.duration]) := by
      have := (List.perm_insertionSort offLE
        ((offs.dropWhile fun o => o.time ≤ note.time)
          ++ [⟨note.time + note.duration, note.pitch⟩])).map NoteOff.time
      rw [List.map_append] at this
      exact this
    refine List.Perm.trans (List.Perm.append_left _ (List.Perm.trans h1
      (List.Perm.append_right _ h2))) ?_
    simp only [← List.append_assoc]
    rw [← List.map_append, List.takeWhile_append_dropWhile, List.map_cons]
    simp only [List.append_assoc, List.singleton_append]
    exact List.Perm.refl _

/-- Helper: with a nondecreasing time trace, an event with strictly smaller
time sits strictly earlier in the stream. -/
theorem sorted_times_index_lt {es : List MidiEvent}
    (hs : List.Sorted (· ≤ ·) (es.map MidiEvent.time))
    {i j : ℕ} (hi : i < es.length) (hj : j < es.length)
    (hlt : (es.get ⟨i, hi⟩).time < (es.get ⟨j, hj⟩).time) : i < j := by
  by_contra hcon
  push_neg at hcon
  rcases eq_or_lt_of_le hcon with heq | hji
  · subst heq
    exact lt_irrefl _ hlt
  · have hp := List.pairwise_iff_getElem.mp hs j i
      (by rw [List.length_map]; exact hj) (by rw [List.length_map]; exact hi) hji
    rw [List.getElem_map, List.getElem_map] at hp
    rw [List.get_eq_getElem, List.get_eq_getElem] at hlt
    exact absurd hp (not_le.mpr hlt)

/-- Helper: a time in `offTimes es` is realized by a note-off event at some
index of the stream. -/
theorem offTime_exists_index {es : List MidiEvent} {t : ℚ} (h : t ∈ offTimes es) :
    ∃ k, ∃ hk : k < es.length,
      (es.get ⟨k, hk⟩).status = 0x80 ∧ (es.get ⟨k, hk⟩).time = t := by
  rw [offTimes, List.mem_filterMap] at h
  obtain ⟨e, he, hfe⟩ := h
  by_cases hst : e.status = 0x80
  · rw [if_pos hst] at hfe
    injection hfe with hfe
    obtain ⟨k, hk, hek⟩ := List.mem_iff_getElem.mp he
    refine ⟨k, hk, ?_, ?_⟩
    · rw [List.get_eq_getElem, hek]
      exact hst
    · rw [List.get_eq_getElem, hek]
      exact hfe
  · rw [if_neg hst] at hfe
    exact absurd hfe (by simp)

/-- C3.  For every list of note events (data model: onset `≥ 0`, duration
`> 0`), the encoder's event walk never produces a negative delta-time, and
for any two overlapping notes `A`, `B` with `A` ending first, `A`'s
note-off event is emitted strictly before `B`'s note-off event. -/
theorem c3_deltas_nonneg_and_off_order :
    ∀ notes : List MidiNote, (∀ n ∈ notes, 0 ≤ n.time ∧ 0 < n.duration) →
      (∀ d ∈ eventDeltas 0 (emitEvents notes), 0 ≤ d) ∧
      (∀ A ∈ notes, ∀ B ∈ notes,
        B.time < A.time + A.duration → A.time + A.duration < B.time + B.duration →
        ∃ i j, ∃ hi : i < (emitEvents notes).length, ∃ hj : j < (emitEvents notes).length,
          i < j ∧
          ((emitEvents notes).get ⟨i, hi⟩).status = 0x80 ∧
          ((emitEvents notes).get ⟨i, hi⟩).time = A.time + A.duration ∧
          ((emitEvents notes).get ⟨j, hj⟩).status = 0x80 ∧
          ((emitEvents notes).get ⟨j, hj⟩).time = B.time + B.duration) := by
  intro notes h
  have hperm := List.perm_insertionSort timeLE notes
  have hkey : List.Sorted (· ≤ ·) ((emitEvents notes).map MidiEvent.time) ∧
      ∀ t ∈ (emitEvents notes).map MidiEvent.time, 0 ≤ t :=
    emitGo_times_ok (List.insertionSort timeLE notes) [] 0
      (by simp) (by simp)
      (List.sorted_insertionSort timeLE notes)
      (fun n hn => (h n (hperm.subset hn)).1)
      (fun n hn => le_of_lt (h n (hperm.subset hn)).2)
  constructor
  · exact fun d hd => eventDeltas_nonneg _ 0 hkey.1 hkey.2 d hd
  · intro A hA B hB hoverlap hend
    have hoffperm : List.Perm (offTimes (emitEvents notes))
        ((List.insertionSort timeLE notes).map fun n => n.time + n.duration) := by
      have h0 := emitGo_offTimes_perm (List.insertionSort timeLE notes) []
      rw [List.map_nil, List.nil_append] at h0
      exact h0
    have hmemA : A.time + A.duration ∈ offTimes (emitEvents notes) := by
      refine hoffperm.mem_iff.mpr ?_
      exact List.mem_map.mpr ⟨A, hperm.mem_iff.mpr hA, rfl⟩
    have hmemB : B.time + B.duration ∈ offTimes (emitEvents notes) := by
      refine hoffperm.mem_iff.mpr ?_
      exact List.mem_map.mpr ⟨B, hperm.mem_iff.mpr hB, rfl⟩
    obtain ⟨i, hi, hsi, hti⟩ := offTime_exists_index hmemA
    obtain ⟨j, hj, hsj, htj⟩ := offTime_exists_index hmemB
    have hij : i < j := sorted_times_index_lt hkey.1 hi hj (by rw [hti, htj]; exact hend)
    exact ⟨i, j, hi, hj, hij, hsi, hti, hsj, htj⟩

/-- Witness for C3 at a concrete pair of overlapping notes. -/
theorem c3_witness :
    (∀ d ∈ eventDeltas 0 (emitEvents [⟨0, 60, 1, 80⟩, ⟨1/2, 64, 2, 90⟩]), 0 ≤ d) ∧
    (∃ i j, ∃ hi : i < (emitEvents [⟨0, 60, 1, 80⟩, ⟨1/2, 64, 2, 90⟩]).length,
      ∃ hj : j < (emitEvents [⟨0, 60, 1, 80⟩, ⟨1/2, 64, 2, 90⟩]).length,
      i < j ∧
      ((emitEvents [⟨0, 60, 1, 80⟩, ⟨1/2, 64, 2, 90⟩]).get ⟨i, hi⟩).status = 0x80 ∧
      ((emitEvents [⟨0, 60, 1, 80⟩, ⟨1/2, 64, 2, 90⟩]).get ⟨i, hi⟩).time =
        (⟨0, 60, 1, 80⟩ : MidiNote).time + (⟨0, 60, 1, 80⟩ : MidiNote).duration ∧
      ((emitEvents [⟨0, 60, 1, 80⟩, ⟨1/2, 64, 2, 90⟩]).get ⟨j, hj⟩).status = 0x80 ∧
      ((emitEvents [⟨0, 60, 1, 80⟩, ⟨1/2, 64, 2, 90⟩]).get ⟨j, hj⟩).time =
        (⟨1/2, 64, 2, 90⟩ : MidiNote).time + (⟨1/2, 64, 2, 90⟩ : MidiNote).duration) := by
  have H := c3_deltas_nonneg_and_off_order [⟨0, 60, 1, 80⟩, ⟨1/2, 64, 2, 90⟩]
    (by with_unfolding_all decide)
  exact ⟨H.1, H.2 ⟨0, 60, 1, 80⟩ (by with_unfolding_all decide) ⟨1/2, 64, 2, 90⟩
    (by with_unfolding_all decide) (by with_unfolding_all decide)
    (by with_unfolding_all decide)⟩

end AudioToScore
